import Mathlib

/-!
Shallow embedding of `src/scripts/rust/src/lib.rs` (Pixel2Mesh metadata
category aggregator) and verification of the specification's claims.

The Rust source exposes two functions:

* `read_lines` opens a file and returns an iterator of per-line read
  results (`io::Result<String>` per line), or an `io::Error` if the file
  cannot be opened.  We model its outcome abstractly as an
  `Option (List (Option String))`: `none` is an open failure, and inside a
  successful open each line is `some s` (an `Ok` line) or `none` (an `Err`
  line, e.g. a decoding failure).

* `calc_categories` folds the lines into a
  `HashMap<String, Rc<HashSet<String>>>`.  We model the map extensionally
  as `String → Option (Finset String)` (a `HashMap` is a key-value mapping
  with no observable order; a `HashSet` is a finite set).  The `Rc`
  copy-on-write dance in the source (`clone`, `remove`, `Rc::get_mut`,
  `insert`) never observably shares: the map is function-local, so after
  `categories.remove(class_id)` the cloned `Rc` is unique and
  `Rc::get_mut(..).unwrap()` succeeds; its net effect is
  `map[class_id] := old_set ∪ {instance_id}`, which is how we embed it.

Paths are modelled by Rust's `std::path` semantics on Unix: a line is
parsed into its `Component` list (`RootDir` for a leading `/`, `CurDir`
for a kept leading `.`, `ParentDir` for `..`, `Normal` otherwise, with
empty and interior `.` segments normalized away), `parent()` pops the
last component and is `None` for the empty path or the bare root, and
`file_name()` is the final component only when it is `Normal` — so it is
`None` for paths ending in `..` or consisting of `.`/`/` alone.

Rust `unwrap` calls on `Option` values (`parent`, `file_name`, `to_str`)
panic on `None`; we embed the per-line extraction in the `Option` monad
(`none` = panic) and let a panic abort the whole pass, as it does in Rust.
`to_str()` on a path segment obtained from a `String` is always `Some`
(the input is valid UTF-8), so it introduces no failure of its own.
-/

namespace P2M

/-- Split a character list at `/` separators; `cur` holds the (reversed)
characters of the segment currently being read. -/
def splitSlashAux : List Char → List Char → List String
  | [], cur => [String.mk cur.reverse]
  | c :: cs, cur =>
    if c = '/' then String.mk cur.reverse :: splitSlashAux cs []
    else splitSlashAux cs (c :: cur)

/-- A Rust `std::path::Component` of a Unix path (there is no `Prefix`
component on Unix): the root directory `/`, a leading `.`, a `..`
segment, or a named segment. -/
inductive Component where
  | rootDir
  | curDir
  | parentDir
  | normal (name : String)
  deriving DecidableEq

/-- The raw non-empty segments of a path string (Rust skips empty
segments arising from repeated or trailing separators). -/
def rawSegs (s : String) : List String :=
  (splitSlashAux s.data []).filter (fun c => c ≠ "")

/-- A raw segment as a component: `..` is `ParentDir`, anything else a
`Normal` segment (`.` segments are filtered out before this map is
applied, mirroring Rust's normalization). -/
def segComponent (c : String) : Component :=
  if c = ".." then Component.parentDir else Component.normal c

/-- Rust `Path::components()` on a Unix path string: a leading `/` is the
`RootDir` component; a leading `.` segment of a rootless path is kept as
`CurDir` (Rust's `include_cur_dir`); every other `.` segment is
normalized away; `..` segments are kept as `ParentDir`; the remaining
segments are `Normal`. -/
def pathComponents (s : String) : List Component :=
  (if s.data.head? == some '/' then [Component.rootDir] else []) ++
    (if (!(s.data.head? == some '/')) && (rawSegs s).head? == some "." then
      [Component.curDir] else []) ++
      ((rawSegs s).filter (fun c => c ≠ ".")).map segComponent

/-- Rust `Path::parent` on a component list: pop the last component;
`None` when there is nothing to pop or the popped component is the root
(`Path::new("/").parent()` is `None`, `Path::new("a").parent()` is
`Some("")`, i.e. `some []`). -/
def parentC (p : List Component) : Option (List Component) :=
  match p.getLast? with
  | none => none
  | some Component.rootDir => none
  | some _ => some p.dropLast

/-- Rust `Path::file_name` on a component list: the final component if it
is a `Normal` one, otherwise `None` (so `None` for the empty path, for
the root, and for paths ending in `.` or `..`). -/
def fileNameC (p : List Component) : Option String :=
  match p.getLast? with
  | some (Component.normal name) => some name
  | _ => none

/-- The per-line identifier extraction of `calc_categories`, lines 29–38 of
the source, on an already-parsed component list:

```rust
let instance_id_dir = p.parent().unwrap().parent().unwrap();
let instance_id = instance_id_dir.file_name().unwrap().to_str().unwrap();
let class_id = instance_id_dir.parent().unwrap().file_name().unwrap()
    .to_str().unwrap();
```

Each `unwrap` becomes a bind in the `Option` monad; `none` models the
panic. -/
def extractIdsOfPath (p : List Component) : Option (String × String) := do
  let d1 ← parentC p
  let instance_id_dir ← parentC d1
  let instance_id ← fileNameC instance_id_dir
  let gp ← parentC instance_id_dir
  let class_id ← fileNameC gp
  pure (class_id, instance_id)

/-- Identifier extraction from a raw line (`let p = Path::new(&line);`
followed by the extraction above). -/
def extractIds (line : String) : Option (String × String) :=
  extractIdsOfPath (pathComponents line)

/-- The category map: `HashMap<String, Rc<HashSet<String>>>`, modelled
extensionally as a key-value mapping. -/
abbrev CatMap := String → Option (Finset String)

/-- `HashMap::new()`. -/
def emptyCatMap : CatMap := fun _ => none

/-- The map update of `calc_categories`, lines 40–54 of the source.  If
`class_id` is present and its set already contains `instance_id`, nothing
happens; if it is present without `instance_id`, the set is replaced by
the set with `instance_id` inserted (the source's clone / remove /
`Rc::get_mut` / insert sequence); otherwise a fresh singleton set is
inserted under `class_id`. -/
def updateMap (categories : CatMap) (class_id instance_id : String) : CatMap :=
  match categories class_id with
  | some st =>
    if instance_id ∈ st then categories
    else fun k => if k = class_id then some (insert instance_id st) else categories k
  | none => fun k => if k = class_id then some {instance_id} else categories k

/-- One iteration of the `for line in lines` loop.  An `Err` line
(`none`) is skipped by the `if let Ok(line)` guard; an `Ok` line whose
extraction panics aborts the computation (`none`); otherwise the map is
updated. -/
def step (categories : CatMap) (line : Option String) : Option CatMap :=
  match line with
  | none => some categories
  | some line =>
    match extractIds line with
    | none => none
    | some (class_id, instance_id) => some (updateMap categories class_id instance_id)

/-- The whole `for` loop: process the lines in order, propagating a
panic. -/
def runLines (categories : CatMap) : List (Option String) → Option CatMap
  | [] => some categories
  | l :: ls =>
    match step categories l with
    | none => none
    | some m => runLines m ls

/-- `calc_categories`.  Its argument is the outcome of
`read_lines(meta_data_file)`: `none` when opening the file failed (the
`if let Ok(lines)` guard then skips the loop and the empty map is
returned), `some lines` when it succeeded.  The result is `none` exactly
when an `unwrap` panic aborted the pass. -/
def calc_categories (openResult : Option (List (Option String))) : Option CatMap :=
  match openResult with
  | none => some emptyCatMap
  | some lines => runLines emptyCatMap lines

/-- A line read result is "well formed" when it is either an `Err` line
(skipped) or an `Ok` line whose identifier extraction succeeds, so that
processing it cannot panic. -/
def lineOk : Option String → Bool
  | none => true
  | some s => (extractIds s).isSome

/-- The three-line scenario input from the specification's testable
properties section. -/
def scenarioLines : List (Option String) :=
  [some "root/catA/inst1/img.png", some "root/catA/inst1/mask.png",
   some "root/catB/inst2/img.png"]

/-! ### Pointwise behaviour of the map update -/

theorem updateMap_apply_self (m : CatMap) (c i : String) :
    updateMap m c i c = some (insert i ((m c).getD ∅)) := by
  unfold updateMap
  cases h : m c with
  | none => simp
  | some st =>
    by_cases hi : i ∈ st
    · simp only [if_pos hi, h, Option.getD_some, Finset.insert_eq_self.mpr hi]
    · simp [hi]

theorem updateMap_apply_ne (m : CatMap) (c i k : String) (hk : k ≠ c) :
    updateMap m c i k = m k := by
  unfold updateMap
  cases h : m c with
  | none => simp [hk]
  | some st =>
    by_cases hi : i ∈ st
    · simp [hi]
    · simp [hi, hk]

theorem finset_insert_comm (a b : String) (s : Finset String) :
    insert a (insert b s) = insert b (insert a s) := by
  ext x
  simp only [Finset.mem_insert]
  tauto

theorem updateMap_comm (m : CatMap) (c1 i1 c2 i2 : String) :
    updateMap (updateMap m c1 i1) c2 i2 = updateMap (updateMap m c2 i2) c1 i1 := by
  funext k
  by_cases h1 : k = c1 <;> by_cases h2 : k = c2
  · subst h1; subst h2
    rw [updateMap_apply_self, updateMap_apply_self, updateMap_apply_self,
      updateMap_apply_self]
    simp [finset_insert_comm]
  · subst h1
    rw [updateMap_apply_ne _ _ _ _ h2, updateMap_apply_self, updateMap_apply_self,
      updateMap_apply_ne _ _ _ _ h2]
  · subst h2
    rw [updateMap_apply_self, updateMap_apply_ne _ _ _ _ h1,
      updateMap_apply_ne _ _ _ _ h1, updateMap_apply_self]
  · rw [updateMap_apply_ne _ _ _ _ h2, updateMap_apply_ne _ _ _ _ h1,
      updateMap_apply_ne _ _ _ _ h1, updateMap_apply_ne _ _ _ _ h2]

theorem updateMap_mono (m : CatMap) (c i k : String) (st : Finset String)
    (h : m k = some st) : ∃ st2, updateMap m c i k = some st2 ∧ st ⊆ st2 := by
  by_cases hk : k = c
  · subst hk
    refine ⟨insert i st, ?_, Finset.subset_insert _ _⟩
    rw [updateMap_apply_self, h, Option.getD_some]
  · exact ⟨st, by rw [updateMap_apply_ne _ _ _ _ hk, h], Finset.Subset.refl st⟩

theorem updateMap_nonempty (m : CatMap) (c i : String)
    (h : ∀ k st, m k = some st → st.Nonempty) :
    ∀ k st, updateMap m c i k = some st → st.Nonempty := by
  intro k st hk
  by_cases hkc : k = c
  · subst hkc
    rw [updateMap_apply_self] at hk
    obtain rfl : insert i ((m k).getD ∅) = st := by injection hk
    exact Finset.insert_nonempty _ _
  · rw [updateMap_apply_ne _ _ _ _ hkc] at hk
    exact h k st hk

/-! ### Behaviour of a loop iteration and of the loop -/

theorem step_err (m : CatMap) : step m none = some m := rfl

theorem step_ok (m : CatMap) (s : String) (c i : String)
    (h : extractIds s = some (c, i)) :
    step m (some s) = some (updateMap m c i) := by
  simp [step, h]

theorem step_panic (m : CatMap) (s : String) (h : extractIds s = none) :
    step m (some s) = none := by
  simp [step, h]

theorem step_swap (m : CatMap) (l1 l2 : Option String) :
    (step m l1).bind (fun m1 => step m1 l2) =
      (step m l2).bind (fun m2 => step m2 l1) := by
  rcases l1 with _ | s1
  · rcases l2 with _ | s2
    · rfl
    · rcases h2 : extractIds s2 with _ | ⟨c2, i2⟩
      · simp [step_err, step_panic _ _ h2]
      · simp [step_err, step_ok _ _ _ _ h2]
  · rcases h1 : extractIds s1 with _ | ⟨c1, i1⟩
    · rcases l2 with _ | s2
      · simp [step_err, step_panic _ _ h1]
      · rcases h2 : extractIds s2 with _ | ⟨c2, i2⟩
        · simp [step_panic _ _ h1, step_panic _ _ h2]
        · simp [step_panic _ _ h1, step_ok _ _ _ _ h2]
    · rcases l2 with _ | s2
      · simp [step_err, step_ok _ _ _ _ h1]
      · rcases h2 : extractIds s2 with _ | ⟨c2, i2⟩
        · simp [step_ok _ _ _ _ h1, step_panic _ _ h2]
        · simp [step_ok _ _ _ _ h1, step_ok _ _ _ _ h2, updateMap_comm]

theorem runLines_cons (m : CatMap) (l : Option String) (ls : List (Option String)) :
    runLines m (l :: ls) = (step m l).bind (fun m2 => runLines m2 ls) := by
  cases h : step m l <;> simp [runLines, h]

theorem runLines_perm {l1 l2 : List (Option String)} (h : l1.Perm l2) :
    ∀ m, runLines m l1 = runLines m l2 := by
  induction h with
  | nil => intro m; rfl
  | cons x _ ih =>
    intro m
    rw [runLines_cons, runLines_cons]
    cases step m x with
    | none => rfl
    | some m2 => simp [ih m2]
  | swap x y l =>
    intro m
    simp only [runLines_cons, ← Option.bind_assoc]
    rw [step_swap]
  | trans _ _ ih1 ih2 => intro m; rw [ih1 m, ih2 m]

theorem runLines_mono (lines : List (Option String)) :
    ∀ m m2, runLines m lines = some m2 →
      ∀ k st, m k = some st → ∃ st2, m2 k = some st2 ∧ st ⊆ st2 := by
  induction lines with
  | nil =>
    intro m m2 hrun k st hk
    obtain rfl : m = m2 := by injection hrun
    exact ⟨st, hk, Finset.Subset.refl st⟩
  | cons l ls ih =>
    intro m m2 hrun k st hk
    rw [runLines_cons] at hrun
    rcases hl : step m l with _ | m1
    · rw [hl] at hrun; exact absurd hrun (by simp)
    · rw [hl] at hrun
      simp only [Option.some_bind] at hrun
      rcases l with _ | s
      · obtain rfl : m = m1 := by injection hl
        exact ih m m2 hrun k st hk
      · rcases hex : extractIds s with _ | ⟨c, i⟩
        · rw [step_panic _ _ hex] at hl; exact absurd hl (by simp)
        · rw [step_ok _ _ _ _ hex] at hl
          obtain rfl : updateMap m c i = m1 := by injection hl
          obtain ⟨st1, hst1, hsub1⟩ := updateMap_mono m c i k st hk
          obtain ⟨st2, hst2, hsub2⟩ := ih _ m2 hrun k st1 hst1
          exact ⟨st2, hst2, Finset.Subset.trans hsub1 hsub2⟩

theorem runLines_nonempty (lines : List (Option String)) :
    ∀ m m2, (∀ k st, m k = some st → st.Nonempty) → runLines m lines = some m2 →
      ∀ k st, m2 k = some st → st.Nonempty := by
  induction lines with
  | nil =>
    intro m m2 hm hrun
    obtain rfl : m = m2 := by injection hrun
    exact hm
  | cons l ls ih =>
    intro m m2 hm hrun
    rw [runLines_cons] at hrun
    rcases hl : step m l with _ | m1
    · rw [hl] at hrun; exact absurd hrun (by simp)
    · rw [hl] at hrun
      simp only [Option.some_bind] at hrun
      rcases l with _ | s
      · obtain rfl : m = m1 := by injection hl
        exact ih m m2 hm hrun
      · rcases hex : extractIds s with _ | ⟨c, i⟩
        · rw [step_panic _ _ hex] at hl; exact absurd hl (by simp)
        · rw [step_ok _ _ _ _ hex] at hl
          obtain rfl : updateMap m c i = m1 := by injection hl
          exact ih _ m2 (updateMap_nonempty m c i hm) hrun

theorem runLines_mem (lines : List (Option String)) :
    ∀ m m2, runLines m lines = some m2 → ∀ s c i, some s ∈ lines →
      extractIds s = some (c, i) → ∃ st, m2 c = some st ∧ i ∈ st := by
  induction lines with
  | nil => intro m m2 _ s c i hmem; exact absurd hmem (List.not_mem_nil _)
  | cons l ls ih =>
    intro m m2 hrun s c i hmem hex
    rw [runLines_cons] at hrun
    rcases hl : step m l with _ | m1
    · rw [hl] at hrun; exact absurd hrun (by simp)
    · rw [hl] at hrun
      simp only [Option.some_bind] at hrun
      rcases List.mem_cons.mp hmem with heq | hmem2
      · obtain rfl : l = some s := heq.symm
        rw [step_ok _ _ _ _ hex] at hl
        obtain rfl : updateMap m c i = m1 := by injection hl
        have h1 : updateMap m c i c = some (insert i ((m c).getD ∅)) :=
          updateMap_apply_self m c i
        obtain ⟨st2, hst2, hsub⟩ := runLines_mono ls _ m2 hrun c _ h1
        exact ⟨st2, hst2, hsub (Finset.mem_insert_self i _)⟩
      · exact ih m1 m2 hrun s c i hmem2 hex

/-! ### Which paths make the extraction succeed -/

theorem parentC_concat (l : List Component) (x : Component)
    (hx : x ≠ Component.rootDir) : parentC (l ++ [x]) = some l := by
  cases x with
  | rootDir => exact absurd rfl hx
  | curDir => simp [parentC, List.getLast?_concat]
  | parentDir => simp [parentC, List.getLast?_concat]
  | normal s => simp [parentC, List.getLast?_concat]

theorem fileNameC_concat_normal (l : List Component) (s : String) :
    fileNameC (l ++ [Component.normal s]) = some s := by
  simp [fileNameC, List.getLast?_concat]

theorem parentC_eq_some (p q : List Component) (h : parentC p = some q) :
    q = p.dropLast ∧ ∃ x, p.getLast? = some x ∧ x ≠ Component.rootDir := by
  unfold parentC at h
  rcases hx : p.getLast? with _ | x
  · rw [hx] at h
    simp at h
  · rw [hx] at h
    cases x with
    | rootDir => simp at h
    | curDir =>
      simp only [Option.some.injEq] at h
      exact ⟨h.symm, Component.curDir, rfl, by simp⟩
    | parentDir =>
      simp only [Option.some.injEq] at h
      exact ⟨h.symm, Component.parentDir, rfl, by simp⟩
    | normal s =>
      simp only [Option.some.injEq] at h
      exact ⟨h.symm, Component.normal s, rfl, by simp⟩

theorem fileNameC_eq_some (p : List Component) (s : String)
    (h : fileNameC p = some s) : p.getLast? = some (Component.normal s) := by
  unfold fileNameC at h
  rcases hx : p.getLast? with _ | x
  · rw [hx] at h
    simp at h
  · rw [hx] at h
    cases x with
    | rootDir => simp at h
    | curDir => simp at h
    | parentDir => simp at h
    | normal t =>
      simp only [Option.some.injEq] at h
      rw [h]

theorem segComponent_ne_root (c : String) :
    segComponent c ≠ Component.rootDir := by
  unfold segComponent
  split <;> simp

theorem rootDir_not_mem_map (l : List String) :
    Component.rootDir ∉ l.map segComponent := by
  intro hmem
  rcases List.mem_map.mp hmem with ⟨c, _, hc⟩
  exact segComponent_ne_root c hc

theorem rootDir_not_mem_tail_aux (r k M : List Component)
    (hr : r = [] ∨ r = [Component.rootDir])
    (hk : k = [] ∨ k = [Component.curDir])
    (hrk : r = [] ∨ k = [])
    (hM : Component.rootDir ∉ M) :
    Component.rootDir ∉ (r ++ k ++ M).tail := by
  rcases hr with rfl | rfl
  · rcases hk with rfl | rfl
    · intro h
      rw [List.nil_append, List.nil_append] at h
      exact hM (List.mem_of_mem_tail h)
    · intro h
      rw [List.nil_append, List.singleton_append, List.tail_cons] at h
      exact hM h
  · rcases hk with rfl | rfl
    · intro h
      rw [List.append_nil, List.singleton_append, List.tail_cons] at h
      exact hM h
    · rcases hrk with h | h <;> simp at h

theorem rootDir_not_mem_tail (s : String) :
    Component.rootDir ∉ (pathComponents s).tail := by
  unfold pathComponents
  apply rootDir_not_mem_tail_aux
  · split <;> simp
  · split <;> simp
  · cases hb1 : (s.data.head? == some '/') <;> simp
  · exact rootDir_not_mem_map _

theorem extractIdsOfPath_concat4 (pre : List Component) (a b : String)
    (c d : Component) (hc : c ≠ Component.rootDir) (hd : d ≠ Component.rootDir) :
    extractIdsOfPath (pre ++ [Component.normal a, Component.normal b, c, d]) =
      some (a, b) := by
  have e1 : pre ++ [Component.normal a, Component.normal b, c, d]
      = (pre ++ [Component.normal a, Component.normal b, c]) ++ [d] := by simp
  have e2 : pre ++ [Component.normal a, Component.normal b, c]
      = (pre ++ [Component.normal a, Component.normal b]) ++ [c] := by simp
  have e3 : pre ++ [Component.normal a, Component.normal b]
      = (pre ++ [Component.normal a]) ++ [Component.normal b] := by simp
  have h1 : parentC (pre ++ [Component.normal a, Component.normal b, c, d])
      = some (pre ++ [Component.normal a, Component.normal b, c]) := by
    rw [e1, parentC_concat _ _ hd]
  have h2 : parentC (pre ++ [Component.normal a, Component.normal b, c])
      = some (pre ++ [Component.normal a, Component.normal b]) := by
    rw [e2, parentC_concat _ _ hc]
  have h3 : fileNameC (pre ++ [Component.normal a, Component.normal b])
      = some b := by
    rw [e3, fileNameC_concat_normal]
  have h4 : parentC (pre ++ [Component.normal a, Component.normal b])
      = some (pre ++ [Component.normal a]) := by
    rw [e3, parentC_concat _ _ (by simp)]
  have h5 : fileNameC (pre ++ [Component.normal a]) = some a :=
    fileNameC_concat_normal _ _
  simp [extractIdsOfPath, h1, h2, h3, h4, h5]

theorem extractIdsOfPath_isSome_iff (p : List Component)
    (hroot : Component.rootDir ∉ p.tail) :
    (extractIdsOfPath p).isSome = true ↔
      ∃ pre a b c d, p =
        pre ++ [Component.normal a, Component.normal b, c, d] := by
  constructor
  · intro h
    have hval : extractIdsOfPath p
        = (parentC p).bind (fun d1 =>
            (parentC d1).bind (fun instDir =>
              (fileNameC instDir).bind (fun instName =>
                (parentC instDir).bind (fun gp =>
                  (fileNameC gp).bind (fun clsName =>
                    some (clsName, instName)))))) := rfl
    rw [hval] at h
    rcases hq1 : parentC p with _ | d1
    · rw [hq1] at h
      simp at h
    rw [hq1] at h
    simp only [Option.some_bind] at h
    rcases hq2 : parentC d1 with _ | instDir
    · rw [hq2] at h
      simp at h
    rw [hq2] at h
    simp only [Option.some_bind] at h
    rcases hq3 : fileNameC instDir with _ | instName
    · rw [hq3] at h
      simp at h
    rw [hq3] at h
    simp only [Option.some_bind] at h
    rcases hq4 : parentC instDir with _ | gp
    · rw [hq4] at h
      simp at h
    rw [hq4] at h
    simp only [Option.some_bind] at h
    rcases hq5 : fileNameC gp with _ | clsName
    · rw [hq5] at h
      simp at h
    obtain ⟨hd1, d, hdl, _⟩ := parentC_eq_some p d1 hq1
    obtain ⟨hi2, c, hcl, _⟩ := parentC_eq_some d1 instDir hq2
    have hbl := fileNameC_eq_some instDir instName hq3
    obtain ⟨hgp, _, _, _⟩ := parentC_eq_some instDir gp hq4
    have hal := fileNameC_eq_some gp clsName hq5
    refine ⟨gp.dropLast, clsName, instName, c, d, ?_⟩
    have e4 : gp.dropLast ++ [Component.normal clsName] = gp :=
      List.dropLast_append_getLast? _ (Option.mem_def.mpr hal)
    have e3 : gp ++ [Component.normal instName] = instDir := by
      rw [hgp]
      exact List.dropLast_append_getLast? _ (Option.mem_def.mpr hbl)
    have e2 : instDir ++ [c] = d1 := by
      rw [hi2]
      exact List.dropLast_append_getLast? _ (Option.mem_def.mpr hcl)
    have e1 : d1 ++ [d] = p := by
      rw [hd1]
      exact List.dropLast_append_getLast? _ (Option.mem_def.mpr hdl)
    have hsplit : gp.dropLast ++
        [Component.normal clsName, Component.normal instName, c, d]
        = (((gp.dropLast ++ [Component.normal clsName])
            ++ [Component.normal instName]) ++ [c]) ++ [d] := by
      simp
    rw [hsplit, e4, e3, e2, e1]
  · rintro ⟨pre, a, b, c, d, rfl⟩
    have hc : c ≠ Component.rootDir := by
      intro hcr
      subst hcr
      exact hroot (by cases pre <;> simp)
    have hd : d ≠ Component.rootDir := by
      intro hdr
      subst hdr
      exact hroot (by cases pre <;> simp)
    rw [extractIdsOfPath_concat4 pre a b c d hc hd]
    rfl

theorem insert_two_strings (a b : String) :
    insert b ({a} : Finset String) = {a, b} := by
  ext x
  simp only [Finset.mem_insert, Finset.mem_singleton]
  tauto

theorem updateMap_no_op (m : CatMap) (cls inst : String) (st : Finset String)
    (h : m cls = some st) (hi : inst ∈ st) : updateMap m cls inst = m := by
  unfold updateMap
  rw [h]
  simp [hi]

theorem runLines_filter_isSome (lines : List (Option String)) :
    ∀ m, runLines m lines = runLines m (lines.filter (fun l => l.isSome)) := by
  induction lines with
  | nil => intro m; rfl
  | cons l ls ih =>
    intro m
    rcases l with _ | s
    · rw [runLines_cons, step_err, Option.some_bind, ih m]
      congr 1
    · have hf : (some s :: ls).filter (fun l => l.isSome)
          = some s :: ls.filter (fun l => l.isSome) := by
        rw [List.filter_cons]; simp
      rw [hf, runLines_cons, runLines_cons]
      rcases hstep : step m (some s) with _ | m1
      · rfl
      · simp only [Option.some_bind]
        exact ih m1

/-! ### The specification's claims -/

/-- Claim C1, counterexample.  The claim says a line with at least two
ancestor components contributes its *grandparent* directory name as the
category key and its *parent* directory name as the instance.  On the line
`root/catA/inst1/img.png` (parent `inst1`, grandparent `catA`) the code
instead derives `("root", "catA")` — great-grandparent as category,
grandparent as instance — so the returned map has no key `catA` and maps
`root` to `{catA}`. -/
theorem claim1_counterexample :
    extractIds "root/catA/inst1/img.png" = some ("root", "catA") ∧
      (calc_categories (some [some "root/catA/inst1/img.png"])).map
        (fun m => (m "catA", m "root")) = some (none, some {"catA"}) := by
  constructor
  · decide
  · decide

/-- Claim C1 (amended): for every input line whose normalized path
components end in four components of which the first two (the segments
**three** and **two** levels above the line's deepest segment, i.e. the
great-grandparent and grandparent directories) are *named* components,
the aggregator derives the category identifier from the great-grandparent
name and the instance identifier from the grandparent name; whenever the
pass completes, the returned map contains that category key with a set
containing that instance identifier. -/
theorem claim1_amended_grouping (lines : List (Option String)) (line : String)
    (pre : List Component) (cat inst : String) (sub leaf : Component)
    (hmem : some line ∈ lines)
    (hcomp : pathComponents line =
      pre ++ [Component.normal cat, Component.normal inst, sub, leaf])
    (m : CatMap) (hrun : calc_categories (some lines) = some m) :
    ∃ st, m cat = some st ∧ inst ∈ st := by
  have hsub : sub ≠ Component.rootDir := by
    intro hs
    subst hs
    exact rootDir_not_mem_tail line (by rw [hcomp]; cases pre <;> simp)
  have hleaf : leaf ≠ Component.rootDir := by
    intro hs
    subst hs
    exact rootDir_not_mem_tail line (by rw [hcomp]; cases pre <;> simp)
  have hex : extractIds line = some (cat, inst) := by
    rw [extractIds, hcomp, extractIdsOfPath_concat4 pre cat inst sub leaf hsub hleaf]
  exact runLines_mem lines emptyCatMap m hrun line cat inst hmem hex

/-- Witness for the amended claim C1 at the concrete line
`r/cat/inst/sub/leaf.png`. -/
theorem claim1_amended_grouping_witness :
    ∃ st, updateMap emptyCatMap "cat" "inst" "cat" = some st ∧ "inst" ∈ st :=
  claim1_amended_grouping [some "r/cat/inst/sub/leaf.png"] "r/cat/inst/sub/leaf.png"
    [Component.normal "r"] "cat" "inst" (Component.normal "sub")
    (Component.normal "leaf.png") (by decide) (by decide)
    (updateMap emptyCatMap "cat" "inst") rfl

/-- Claim C2, counterexample.  On the specification's three-line scenario
the claim expects `{catA ↦ {inst1}, catB ↦ {inst2}}`; the code returns a
map with no keys `catA`/`catB` and with `root ↦ {catA, catB}`. -/
theorem claim2_counterexample :
    (calc_categories (some scenarioLines)).map
        (fun m => (m "catA", m "catB", m "root")) =
      some (none, none, some {"catA", "catB"}) := by
  have h : (calc_categories (some scenarioLines)).map
        (fun m => (m "catA", m "catB", m "root")) =
      some (none, none, some (insert "catB" ({"catA"} : Finset String))) := rfl
  rw [h, insert_two_strings]

/-- Claim C2 (amended): on the three-line scenario input the aggregator
returns exactly the map `{root ↦ {catA, catB}}` (any permutation of the
lines gives the same map, which the order-independence claim C5 covers). -/
theorem claim2_amended_scenario :
    calc_categories (some scenarioLines) =
      some (fun k => if k = "root" then some ({"catA", "catB"} : Finset String)
        else none) := by
  have h0 : calc_categories (some scenarioLines) =
      some (updateMap (updateMap (updateMap emptyCatMap "root" "catA")
        "root" "catA") "root" "catB") := rfl
  rw [h0]
  congr 1
  funext k
  by_cases hk : k = "root"
  · subst hk
    have hval : updateMap (updateMap (updateMap emptyCatMap "root" "catA")
        "root" "catA") "root" "catB" "root"
        = some (insert "catB" ({"catA"} : Finset String)) := rfl
    rw [hval, insert_two_strings]
    simp
  · rw [updateMap_apply_ne _ _ _ _ hk, updateMap_apply_ne _ _ _ _ hk,
      updateMap_apply_ne _ _ _ _ hk]
    simp [emptyCatMap, hk]

/-- Claim C3: when opening the metadata file fails (`read_lines` returns
an error, modelled by the argument `none`), `calc_categories` returns the
empty category map — and returns it normally, not as an error. -/
theorem claim3_open_failure_swallowed :
    calc_categories none = some emptyCatMap ∧ ∀ k : String, emptyCatMap k = none :=
  ⟨rfl, fun _ => rfl⟩

/-- Claim C4: re-insertion is idempotent.  If two lines derive the same
`(category, instance)` pair, running the aggregator on exactly those two
lines yields that category mapped to the singleton `{instance}` (size 1),
and updating the resulting map with the same pair again leaves it
unchanged. -/
theorem claim4_dedup_idempotent (l1 l2 cls inst : String)
    (h1 : extractIds l1 = some (cls, inst))
    (h2 : extractIds l2 = some (cls, inst))
    (m : CatMap) (hrun : calc_categories (some [some l1, some l2]) = some m) :
    updateMap m cls inst = m ∧ ∃ st, m cls = some st ∧ st = {inst} ∧ st.card = 1 := by
  have hm1 : updateMap emptyCatMap cls inst cls = some {inst} := by
    rw [updateMap_apply_self]
    simp [emptyCatMap]
  have hcalc : calc_categories (some [some l1, some l2])
      = some (updateMap emptyCatMap cls inst) := by
    show runLines emptyCatMap [some l1, some l2] = _
    rw [runLines_cons, step_ok _ _ _ _ h1, Option.some_bind,
      runLines_cons, step_ok _ _ _ _ h2, Option.some_bind,
      updateMap_no_op _ _ _ _ hm1 (Finset.mem_singleton_self inst)]
    rfl
  rw [hcalc] at hrun
  obtain rfl : updateMap emptyCatMap cls inst = m := by injection hrun
  exact ⟨updateMap_no_op _ _ _ _ hm1 (Finset.mem_singleton_self inst),
    {inst}, hm1, rfl, Finset.card_singleton inst⟩

/-- Witness for claim C4 at the concrete lines `r/cat/inst/sub/f1` and
`r/cat/inst/sub/f2`, which both derive the pair `("cat", "inst")`. -/
theorem claim4_dedup_idempotent_witness :
    updateMap (updateMap emptyCatMap "cat" "inst") "cat" "inst"
        = updateMap emptyCatMap "cat" "inst" ∧
      ∃ st, updateMap emptyCatMap "cat" "inst" "cat" = some st ∧
        st = {"inst"} ∧ st.card = 1 :=
  claim4_dedup_idempotent "r/cat/inst/sub/f1" "r/cat/inst/sub/f2" "cat" "inst"
    (by decide) (by decide) (updateMap emptyCatMap "cat" "inst") rfl

/-- Claim C5: for a well-formed input (no line's processing can panic),
permuting the order of the input lines yields an identical final category
map — equality as a key-value mapping, with each category's set compared
as a set. -/
theorem claim5_order_independence (lines1 lines2 : List (Option String))
    (hwf : ∀ l ∈ lines1, lineOk l = true)
    (hperm : lines1.Perm lines2) :
    calc_categories (some lines1) = calc_categories (some lines2) :=
  runLines_perm hperm emptyCatMap

/-- Witness for claim C5: swapping two concrete well-formed lines leaves
the result unchanged. -/
theorem claim5_order_independence_witness :
    calc_categories (some [some "r/cat/i1/s/f1", some "r/cat/i2/s/f2"]) =
      calc_categories (some [some "r/cat/i2/s/f2", some "r/cat/i1/s/f1"]) :=
  claim5_order_independence _ _ (by decide) (List.Perm.swap _ _ _)

/-- Claim C6, counterexample.  The claim says extraction succeeds for any
line with at least two ancestor components and fails only below two.  The
line `catA/inst1/img.png` has exactly two ancestor components (component
count 3), yet extraction panics (the third `parent()` yields the empty
path, whose `file_name()` is `None`), aborting the pass.  Lines with
`..`/`.` segments show the other failure mode: `a/b/../c/d` (four
ancestors) panics because `file_name()` of a path ending in `..` is
`None`, and `./a/b/c` panics on `file_name()` of `.`, while the interior
`.` of `a/./b/c/d` is normalized away and that line completes. -/
theorem claim6_counterexample :
    (pathComponents "catA/inst1/img.png").length = 3 ∧
      extractIds "catA/inst1/img.png" = none ∧
      runLines emptyCatMap [some "catA/inst1/img.png"] = none ∧
      extractIds "a/b/../c/d" = none ∧
      extractIds "./a/b/c" = none ∧
      extractIds "a/./b/c/d" = some ("a", "b") :=
  ⟨by decide, by decide, rfl, by decide, by decide, by decide⟩

/-- Claim C6 (amended): per-line identifier extraction succeeds exactly
when the line's normalized components end in four components whose first
two — the segments three and two levels above the deepest segment — are
*named* (`Normal`) components; otherwise (fewer than four components, or
a `..`/`.`/root component where a directory name is taken) one of the
`unwrap` calls panics. -/
theorem claim6_amended_extraction (line : String) :
    (extractIds line).isSome = true ↔
      ∃ pre cat inst sub leaf, pathComponents line =
        pre ++ [Component.normal cat, Component.normal inst, sub, leaf] :=
  extractIdsOfPath_isSome_iff (pathComponents line) (rootDir_not_mem_tail line)

/-- Claim C7: the category map grows monotonically along the pass — if a
run of the loop starting from any map state finishes, every category key
present before is still present afterwards, and its instance set has only
gained members. -/
theorem claim7_monotone (lines : List (Option String)) (m m2 : CatMap)
    (hrun : runLines m lines = some m2) (k : String) (st : Finset String)
    (hk : m k = some st) : ∃ st2, m2 k = some st2 ∧ st ⊆ st2 :=
  runLines_mono lines m m2 hrun k st hk

/-- Witness for claim C7: one concrete line, starting from a map that
already has an unrelated key `zeb`. -/
theorem claim7_monotone_witness :
    ∃ st2, updateMap (fun k => if k = "zeb" then some ({"z0"} : Finset String)
        else none) "cat" "inst" "zeb" = some st2 ∧
      ({"z0"} : Finset String) ⊆ st2 :=
  claim7_monotone [some "r/cat/inst/sub/f"]
    (fun k => if k = "zeb" then some ({"z0"} : Finset String) else none)
    (updateMap (fun k => if k = "zeb" then some ({"z0"} : Finset String) else none)
      "cat" "inst")
    rfl "zeb" {"z0"} (by decide)

/-- Claim C8: in any map returned by `calc_categories`, every category
key present maps to a non-empty instance set. -/
theorem claim8_nonempty_sets (o : Option (List (Option String))) (m : CatMap)
    (hrun : calc_categories o = some m) (k : String) (st : Finset String)
    (hk : m k = some st) : st.Nonempty := by
  rcases o with _ | lines
  · obtain rfl : emptyCatMap = m := by injection hrun
    exact absurd hk (by simp [emptyCatMap])
  · exact runLines_nonempty lines emptyCatMap m
      (fun k2 st2 h2 => absurd h2 (by simp [emptyCatMap])) hrun k st hk

/-- Witness for claim C8 on a one-line input. -/
theorem claim8_nonempty_sets_witness : ({"catA"} : Finset String).Nonempty :=
  claim8_nonempty_sets (some [some "root/catA/inst1/img.png"])
    (updateMap emptyCatMap "root" "catA") rfl "root" {"catA"} (by decide)

/-- Claim C9: per-line read failures are skipped silently and do not
abort the pass — the result on any line sequence equals the result on the
subsequence of successfully read lines. -/
theorem claim9_skip_failed_lines (lines : List (Option String)) :
    calc_categories (some lines) =
      calc_categories (some (lines.filter (fun l => l.isSome))) :=
  runLines_filter_isSome lines emptyCatMap

/-- Claim C10 (implicit frame property): processing a single input line
modifies at most the entry for that line's derived category key; every
other key's entry is untouched. -/
theorem claim10_frame (m m2 : CatMap) (line cls inst k : String)
    (hex : extractIds line = some (cls, inst))
    (hstep : step m (some line) = some m2) (hk : k ≠ cls) : m2 k = m k := by
  rw [step_ok _ _ _ _ hex] at hstep
  obtain rfl : updateMap m cls inst = m2 := by injection hstep
  exact updateMap_apply_ne _ _ _ _ hk

/-- Witness for claim C10 at a concrete line and the unrelated key
`other`. -/
theorem claim10_frame_witness :
    updateMap emptyCatMap "cat" "inst" "other" = emptyCatMap "other" :=
  claim10_frame emptyCatMap (updateMap emptyCatMap "cat" "inst")
    "r/cat/inst/sub/f" "cat" "inst" "other" (by decide) rfl (by decide)

end P2M
